import Mathlib

/-
Verification of the vector-storage gateway (vector-api/main.py) and the
memory client (vmem-cli/vmem.py): collection-name derivation, auth check,
list pagination, the client's pruning sweeps, and compact cap enforcement.
Machine strings are modelled as Lean String at the code-point level; the
vector database and the ISO timestamp parser are external black boxes,
modelled by their documented input/output behaviour.
-/

namespace VectorStorage

/-- A stored document as the gateway and client exchange it over the list and
delete endpoints. The metadata dictionary is restricted to the two keys the
verified logic reads: the type tag and the created_at ISO timestamp string;
an absent key is modelled as none, and a text of None or a missing text is
modelled as the empty string, matching how both are falsy in the source. -/
structure Doc where
  id : String
  text : String
  created_at : Option String
  mtype : Option String
deriving DecidableEq

/-- Python str.lower, restricted to code points where it agrees with
Char.toLower (every input in this development is ASCII). -/
def pyLower (s : String) : String := ⟨s.toList.map Char.toLower⟩

/-- Python str.replace with the one-character pattern a space and the
one-character replacement a hyphen, which acts pointwise. -/
def replaceSpaceWithHyphen (s : String) : String :=
  ⟨s.toList.map (fun c => if c = ' ' then '-' else c)⟩

/-- Collection name computed by POST /write/project (main.py line 204):
lower-case the project id, then turn spaces into hyphens. -/
def write_project_collection (project_id : String) : String :=
  "project_" ++ replaceSpaceWithHyphen (pyLower project_id)

/-- Collection name computed by POST /query/project (main.py line 242),
textually the same expression as the write endpoint. -/
def query_project_collection (project_id : String) : String :=
  "project_" ++ replaceSpaceWithHyphen (pyLower project_id)

/-- Collection name computed by POST /list/project (main.py line 285),
textually the same expression as the write endpoint. -/
def list_project_collection (project_id : String) : String :=
  "project_" ++ replaceSpaceWithHyphen (pyLower project_id)

/-- Collection name computed by POST /delete/project (main.py line 336): the
raw project id glued after the scheme tag, with no lowercasing and no space
replacement. -/
def delete_project_collection (project_id : String) : String :=
  "project_" ++ project_id

/-- Outcome of the FastAPI auth dependency: either the request proceeds or it
is rejected with HTTP 401. -/
inductive AuthResult where
  | ok : AuthResult
  | unauthorized : AuthResult
deriving DecidableEq

/-- Python str.startswith at the code-point level. -/
def pyStartsWith (s pat : String) : Bool :=
  s.toList.take pat.toList.length == pat.toList

/-- Python slice s[n:] at the code-point level. -/
def pySliceFrom (s : String) (n : Nat) : String := ⟨s.toList.drop n⟩

/-- verify_token from main.py lines 70-80. A missing Authorization header is
none; Python treats the empty string header as missing too (falsiness), so
both take the missing-header branch. -/
def verify_token (AUTH_TOKEN : String) (authorization : Option String) :
    AuthResult :=
  if AUTH_TOKEN = "" then .ok
  else
    match authorization with
    | none => .unauthorized
    | some a =>
        if a = "" then .unauthorized
        else if pyStartsWith a "Bearer " = false then .unauthorized
        else if pySliceFrom a 7 ≠ AUTH_TOKEN then .unauthorized
        else .ok

/-- The vector database's collection-delete endpoint (external black box,
modelled per its documented semantics): dropping an existing collection
removes it and answers 200, dropping an absent one answers 404. -/
def chromaDeleteCollection (collections : List String) (name : String) :
    List String × Nat :=
  if name ∈ collections then (collections.filter (fun c => c != name), 200)
  else (collections, 404)

/-- POST /delete/project handler (main.py lines 333-349) as a transformer on
the store's collection list, returning the updated store and whether the
request reported success: a 404 from the store is mapped to success, 200 and
204 are success, anything else would be a 500 error. -/
def delete_project (collections : List String) (project_id : String) :
    List String × Bool :=
  let res := chromaDeleteCollection collections (delete_project_collection project_id)
  if res.2 = 404 then (res.1, true)
  else if res.2 = 200 ∨ res.2 = 204 then (res.1, true)
  else (res.1, false)

/-- The vector database's document-delete endpoint (external black box):
removes every document whose id is listed and answers 200 whether or not any
of the ids existed. -/
def chromaDeleteDocuments (docs : List Doc) (ids : List String) :
    List Doc × Nat :=
  (docs.filter (fun d => !(ids.contains d.id)), 200)

/-- Response body of POST /delete/document. -/
structure DeleteDocumentResponse where
  deleted_count : Nat
  deleted_ids : List String
  collectionName : String
deriving DecidableEq

/-- POST /delete/document handler (main.py lines 306-330): forwards the ids to
the store and, when the store reports success, answers with deleted_count
equal to the number of requested ids and deleted_ids equal to the requested
list itself. -/
def delete_document (docs : List Doc) (req_collection : String)
    (ids : List String) : List Doc × Option DeleteDocumentResponse :=
  let res := chromaDeleteDocuments docs ids
  if res.2 = 200 ∨ res.2 = 204 then
    (res.1, some ⟨ids.length, ids, req_collection⟩)
  else (docs, none)

theorem string_append_data (s t : String) : (s ++ t).data = s.data ++ t.data := by
  cases s; cases t; rfl

theorem string_toList_eq_data (s : String) : s.toList = s.data := rfl

/-- C1: the slug derivation (lowercase, space to hyphen) is applied by the
write, query and list project endpoints, but POST /delete/project uses the
raw project id: on project id "Demo App" the write endpoint targets
collection "project_demo-app" while the delete endpoint targets
"project_Demo App", a different collection, so the claim that every project
endpoint applies the same derivation fails on the delete endpoint. -/
theorem C1_delete_project_slug_mismatch :
    write_project_collection "Demo App" = "project_demo-app" ∧
    query_project_collection "Demo App" = write_project_collection "Demo App" ∧
    list_project_collection "Demo App" = write_project_collection "Demo App" ∧
    delete_project_collection "Demo App" = "project_Demo App" ∧
    delete_project_collection "Demo App" ≠ write_project_collection "Demo App" := by
  decide

/-- C7: deleting a project twice in a row succeeds both times: the first call
leaves the store without the target collection, and the second call observes
the store's 404 and still reports success, so deleting a nonexistent project
collection is a successful no-op. -/
theorem C7_delete_project_idempotent (collections : List String) (pid : String) :
    (delete_project collections pid).2 = true ∧
    delete_project_collection pid ∉ (delete_project collections pid).1 ∧
    (delete_project (delete_project collections pid).1 pid).2 = true := by
  by_cases h : delete_project_collection pid ∈ collections
  · have hpost : delete_project_collection pid ∉
        (collections.filter (fun c => c != delete_project_collection pid)) := by
      intro hmem
      have := List.of_mem_filter hmem
      simp at this
    simp [delete_project, chromaDeleteCollection, h, hpost]
  · simp [delete_project, chromaDeleteCollection, h]

/-- C8: when a shared secret is configured, verify_token accepts a request
exactly when its Authorization header is the string "Bearer " followed by the
secret, and rejects with 401 otherwise (missing header, malformed header, or
wrong token); when no secret is configured it accepts unconditionally. -/
theorem C8_verify_token_exact (tok : String) (auth : Option String) :
    (tok = "" → verify_token tok auth = .ok) ∧
    (tok ≠ "" →
      ((verify_token tok auth = .ok ↔ auth = some ("Bearer " ++ tok)) ∧
       (verify_token tok auth ≠ .ok → verify_token tok auth = .unauthorized))) := by
  constructor
  · intro h; simp [verify_token, h]
  · intro htok
    constructor
    · constructor
      · intro hok
        match auth with
        | none => simp [verify_token, htok] at hok
        | some a =>
          by_cases ha : a = ""
          · simp [verify_token, htok, ha] at hok
          · by_cases hsw : pyStartsWith a "Bearer " = false
            · simp [verify_token, htok, ha, hsw] at hok
            · by_cases hsl : pySliceFrom a 7 ≠ tok
              · simp [verify_token, htok, ha, hsw, hsl] at hok
              · have hsl' : pySliceFrom a 7 = tok := not_not.mp hsl
                have hsw' : pyStartsWith a "Bearer " = true := by
                  cases hb : pyStartsWith a "Bearer "
                  · exact absurd hb hsw
                  · rfl
                have htake : a.toList.take 7 = "Bearer ".toList := by
                  have := of_decide_eq_true (by
                    simpa [pyStartsWith] using hsw')
                  simpa using this
                have hdata : a.data = "Bearer ".data ++ tok.data := by
                  have hsplit := List.take_append_drop 7 a.toList
                  have hdrop : a.toList.drop 7 = tok.data := by
                    have : (pySliceFrom a 7).data = tok.data := by rw [hsl']
                    simpa [pySliceFrom] using this
                  calc a.data = a.toList := rfl
                    _ = a.toList.take 7 ++ a.toList.drop 7 := hsplit.symm
                    _ = "Bearer ".toList ++ tok.data := by rw [htake, hdrop]
                    _ = "Bearer ".data ++ tok.data := rfl
                have : a = "Bearer " ++ tok := by
                  cases a with
                  | mk d =>
                    have hd : d = ("Bearer " ++ tok).data := by
                      rw [string_append_data]; exact hdata
                    rw [hd]
                simp [this]
      · intro heq
        subst heq
        have hdata : ("Bearer " ++ tok).data = "Bearer ".data ++ tok.data :=
          string_append_data _ _
        have hne : ("Bearer " ++ tok) ≠ "" := by
          intro hcon
          have : ("Bearer " ++ tok).data = ("" : String).data := by rw [hcon]
          rw [hdata] at this
          simp at this
        have hsw : pyStartsWith ("Bearer " ++ tok) "Bearer " = true := by
          have htake : ("Bearer " ++ tok).toList.take 7 = "Bearer ".toList := by
            show (("Bearer " ++ tok).data).take 7 = "Bearer ".data
            rw [hdata]
            have hlen : ("Bearer ".data).length = 7 := by decide
            rw [List.take_append_of_le_length (by rw [hlen])]
            simp [hlen]
          simp [pyStartsWith, htake]
        have hsl : pySliceFrom ("Bearer " ++ tok) 7 = tok := by
          have hdrop : ("Bearer " ++ tok).data.drop 7 = tok.data := by
            rw [hdata]
            have hlen : ("Bearer ".data).length = 7 := by decide
            rw [List.drop_append_of_le_length (by rw [hlen])]
            simp [hlen]
          cases tok with
          | mk d => simp [pySliceFrom, string_toList_eq_data, hdrop]
        simp [verify_token, htok, hne, hsw, hsl]
    · intro hne
      match h : verify_token tok auth with
      | .ok => exact absurd h hne
      | .unauthorized => rfl

/-- C8 witness: with secret "secret", the exact bearer header is accepted. -/
theorem C8_verify_token_exact_witness :
    verify_token "secret" (some "Bearer secret") = .ok :=
  ((C8_verify_token_exact "secret" (some "Bearer secret")).2 (by decide)).1.mpr
    (by decide)

/-- C10: whenever the store's delete succeeds, POST /delete/document reports
deleted_count equal to the length of the requested id list and deleted_ids
equal to the requested ids themselves, regardless of whether those ids exist:
in particular deleting two ids from an empty collection still reports two
deletions while removing nothing. -/
theorem C10_delete_document_reports_request :
    (∀ (docs : List Doc) (coll : String) (ids : List String),
        (delete_document docs coll ids).2 = some ⟨ids.length, ids, coll⟩) ∧
    (delete_document [] "global" ["a", "b"]).2 = some ⟨2, ["a", "b"], "global"⟩ ∧
    (delete_document [] "global" ["a", "b"]).1 = [] := by
  refine ⟨?_, by decide, by decide⟩
  intro docs coll ids
  simp [delete_document, chromaDeleteDocuments]

/-- Sort key used by the list endpoints and the client sweeps: the created_at
metadata value, defaulting to the empty string when the key is absent, as the
Python source does with dict.get. -/
def createdKey (d : Doc) : String := d.created_at.getD ""

/-- Lexicographic code-point comparison of code-point lists, the ordering
Python uses to compare str values. -/
def charListLe : List Char → List Char → Bool
  | [], _ => true
  | _ :: _, [] => false
  | a :: as, b :: bs =>
      if a < b then true
      else if b < a then false
      else charListLe as bs

/-- Less-or-equal on strings as Python compares them. -/
def strLe (s t : String) : Bool := charListLe s.toList t.toList

theorem charListLe_total (l m : List Char) :
    charListLe l m = true ∨ charListLe m l = true := by
  induction l generalizing m with
  | nil => left; rfl
  | cons a as ih =>
      cases m with
      | nil => right; rfl
      | cons b bs =>
          by_cases hab : a < b
          · left; simp [charListLe, hab]
          · by_cases hba : b < a
            · right; simp [charListLe, hba]
            · rcases ih bs with h | h
              · left; simp [charListLe, hab, hba, h]
              · right; simp [charListLe, hab, hba, h]

theorem charListLe_trans {l m n : List Char} (h1 : charListLe l m = true)
    (h2 : charListLe m n = true) : charListLe l n = true := by
  induction l generalizing m n with
  | nil => rfl
  | cons a as ih =>
      cases m with
      | nil => simp [charListLe] at h1
      | cons b bs =>
          cases n with
          | nil => simp [charListLe] at h2
          | cons c cs =>
              by_cases hab : a < b
              · by_cases hbc : b < c
                · simp [charListLe, lt_trans hab hbc]
                · by_cases hcb : c < b
                  · simp [charListLe, hbc, hcb] at h2
                  · have hbc' : b = c := le_antisymm (not_lt.mp hcb) (not_lt.mp hbc)
                    simp [charListLe, hbc' ▸ hab]
              · by_cases hba : b < a
                · simp [charListLe, hab, hba] at h1
                · have hab' : a = b := le_antisymm (not_lt.mp hba) (not_lt.mp hab)
                  subst hab'
                  by_cases hac : a < c
                  · simp [charListLe, hac]
                  · by_cases hca : c < a
                    · simp [charListLe, hac, hca] at h2
                    · simp [charListLe, hab, hac, hca] at h1 h2 ⊢
                      exact ih h1 h2

theorem strLe_total (s t : String) : strLe s t = true ∨ strLe t s = true :=
  charListLe_total s.toList t.toList

theorem strLe_trans {s t u : String} (h1 : strLe s t = true)
    (h2 : strLe t u = true) : strLe s u = true :=
  charListLe_trans h1 h2

/-- Stable insertion of a document into a descending-by-key list: the new
element, which comes from earlier in the original list, is placed before the
first element whose key is at most its own, matching the stability of the
Python sort with reverse set. -/
def insDescBy (key : Doc → String) (a : Doc) : List Doc → List Doc
  | [] => [a]
  | b :: bs =>
      if strLe (key b) (key a) then a :: b :: bs else b :: insDescBy key a bs

/-- Stable descending sort by a string key, the model of the Python list sort
with a key function and reverse set. -/
def sortDescBy (key : Doc → String) : List Doc → List Doc
  | [] => []
  | a :: as => insDescBy key a (sortDescBy key as)

theorem mem_insDescBy (key : Doc → String) (a x : Doc) (l : List Doc) :
    x ∈ insDescBy key a l ↔ x = a ∨ x ∈ l := by
  induction l with
  | nil => simp [insDescBy]
  | cons b bs ih =>
      cases h : strLe (key b) (key a) with
      | true => simp [insDescBy, h]
      | false =>
          simp only [insDescBy, h, Bool.false_eq_true, if_false, List.mem_cons, ih]
          tauto

theorem perm_insDescBy (key : Doc → String) (a : Doc) (l : List Doc) :
    List.Perm (insDescBy key a l) (a :: l) := by
  induction l with
  | nil => simp [insDescBy]
  | cons b bs ih =>
      cases h : strLe (key b) (key a) with
      | true => simp [insDescBy, h]
      | false =>
          simp only [insDescBy, h, Bool.false_eq_true, if_false]
          exact List.Perm.trans (List.Perm.cons b ih) (List.Perm.swap a b bs)

theorem perm_sortDescBy (key : Doc → String) (l : List Doc) :
    List.Perm (sortDescBy key l) l := by
  induction l with
  | nil => exact List.Perm.refl _
  | cons a as ih =>
      exact List.Perm.trans (perm_insDescBy key a (sortDescBy key as))
        (List.Perm.cons a ih)

theorem length_sortDescBy (key : Doc → String) (l : List Doc) :
    (sortDescBy key l).length = l.length :=
  (perm_sortDescBy key l).length_eq

theorem mem_sortDescBy (key : Doc → String) (x : Doc) (l : List Doc) :
    x ∈ sortDescBy key l ↔ x ∈ l :=
  (perm_sortDescBy key l).mem_iff

theorem pairwise_insDescBy (key : Doc → String) (a : Doc) (l : List Doc)
    (h : l.Pairwise (fun x y => strLe (key y) (key x) = true)) :
    (insDescBy key a l).Pairwise (fun x y => strLe (key y) (key x) = true) := by
  induction l with
  | nil => simp [insDescBy]
  | cons b bs ih =>
      rcases List.pairwise_cons.mp h with ⟨hb, hbs⟩
      cases hk : strLe (key b) (key a) with
      | true =>
          simp only [insDescBy, hk, if_true]
          refine List.pairwise_cons.mpr ⟨?_, h⟩
          intro y hy
          rcases List.mem_cons.mp hy with rfl | hy'
          · exact hk
          · exact strLe_trans (hb y hy') hk
      | false =>
          simp only [insDescBy, hk, Bool.false_eq_true, if_false]
          refine List.pairwise_cons.mpr ⟨?_, ih hbs⟩
          intro y hy
          rcases (mem_insDescBy key a y bs).mp hy with hya | hy'
          · rw [hya]
            rcases strLe_total (key b) (key a) with hba | hab
            · exact absurd hba (by simp [hk])
            · exact hab
          · exact hb y hy'

theorem pairwise_sortDescBy (key : Doc → String) (l : List Doc) :
    (sortDescBy key l).Pairwise (fun x y => strLe (key y) (key x) = true) := by
  induction l with
  | nil => simp [sortDescBy]
  | cons a as ih => exact pairwise_insDescBy key a _ ih

/-- POST /list/global and POST /list/project (main.py lines 262-303): fetch
one page from the store, the slice of the native order given by offset then
limit, and sort that page by created_at descending before answering. -/
def list_endpoint (store : List Doc) (limit offset : Nat) : List Doc :=
  sortDescBy createdKey ((store.drop offset).take limit)

/-- A document inserted first, hence first in the native order, and older. -/
def docOldFirst : Doc := ⟨"1", "alpha", some "2024-01-01T00:00:00Z", none⟩

/-- A document inserted second, hence second in the native order, and newer. -/
def docNewSecond : Doc := ⟨"2", "beta", some "2024-01-02T00:00:00Z", none⟩

/-- C2 counterexample: on a store whose native order is oldest first, the
list endpoint answers the page newest first, so the gateway does apply a sort
of its own and the documents are not returned in the store's native order. -/
theorem C2_gateway_sorts_counterexample :
    list_endpoint [docOldFirst, docNewSecond] 2 0 = [docNewSecond, docOldFirst] ∧
    list_endpoint [docOldFirst, docNewSecond] 2 0 ≠ [docOldFirst, docNewSecond] := by
  decide

/-- C2 amended: each list request is a single-page fetch, the response being
a permutation of the native-order slice at the given limit and offset, but
the gateway sorts that page by metadata created_at descending (a missing
created_at sorting as the empty string) instead of keeping native order. -/
theorem C2_list_single_page_sorted (store : List Doc) (limit offset : Nat) :
    List.Perm (list_endpoint store limit offset) ((store.drop offset).take limit) ∧
    (list_endpoint store limit offset).Pairwise
      (fun a b => strLe (createdKey b) (createdKey a) = true) :=
  ⟨perm_sortDescBy _ _, pairwise_sortDescBy _ _⟩

theorem length_list_endpoint (store : List Doc) (limit offset : Nat) :
    (list_endpoint store limit offset).length
      = min limit (store.length - offset) := by
  simp [list_endpoint, length_sortDescBy]

/-- Page size the client hardcodes for the full-listing sweep of delete_bulk
(vmem.py line 1645). -/
def BULK_PAGE : Nat := 1000

/-- The page-fetch loop of delete_bulk (vmem.py lines 1653-1682): fetch a page
at the current offset through the list endpoint, stop on an empty page, stop
after taking a short page, otherwise take the page, advance the offset by its
length and continue. The value collects the fetched non-empty pages in
order, as the loop extends its documents accumulator. -/
def sweepPages (store : List Doc) (offset : Nat) : List (List Doc) :=
  if list_endpoint store BULK_PAGE offset = [] then []
  else if (list_endpoint store BULK_PAGE offset).length < BULK_PAGE then
    [list_endpoint store BULK_PAGE offset]
  else
    list_endpoint store BULK_PAGE offset ::
      sweepPages store (offset + (list_endpoint store BULK_PAGE offset).length)
termination_by store.length - offset
decreasing_by
  rename_i hempty hshort
  have hlen := length_list_endpoint store BULK_PAGE offset
  have hzero : (list_endpoint store BULK_PAGE offset).length ≠ 0 := by
    intro h0
    exact hempty (List.length_eq_zero.mp h0)
  simp only [BULK_PAGE] at hlen hshort
  omega

theorem sweepPages_spec (store : List Doc) (fuel : Nat) :
    ∀ offset, store.length - offset ≤ fuel → offset ≤ store.length →
      ((sweepPages store offset).flatten.length = store.length - offset ∧
       (sweepPages store offset).length
         = (store.length - offset + (BULK_PAGE - 1)) / BULK_PAGE) := by
  induction fuel with
  | zero =>
      intro offset hfuel hoff
      have hm : store.length - offset = 0 := Nat.le_zero.mp hfuel
      have hlen := length_list_endpoint store BULK_PAGE offset
      have hnil : list_endpoint store BULK_PAGE offset = [] := by
        apply List.length_eq_zero.mp
        simp [hlen, hm]
      rw [sweepPages, if_pos hnil]
      constructor
      · simp [hm]
      · simp [hm, BULK_PAGE]
  | succ n ih =>
      intro offset hfuel hoff
      have hlen := length_list_endpoint store BULK_PAGE offset
      by_cases hnil : list_endpoint store BULK_PAGE offset = []
      · have h0 : (list_endpoint store BULK_PAGE offset).length = 0 := by
          simp [hnil]
        simp only [BULK_PAGE] at hlen h0
        have hm : store.length - offset = 0 := by omega
        rw [sweepPages, if_pos hnil]
        constructor
        · simp [hm]
        · simp [hm, BULK_PAGE]
      · have hpos : 0 < (list_endpoint store BULK_PAGE offset).length :=
          List.length_pos.mpr hnil
        by_cases hshort : (list_endpoint store BULK_PAGE offset).length < BULK_PAGE
        · rw [sweepPages, if_neg hnil, if_pos hshort]
          simp only [BULK_PAGE] at hlen hshort hpos
          have hm : store.length - offset
              = (list_endpoint store 1000 offset).length := by omega
          constructor
          · rw [hm]
            simp [BULK_PAGE]
          · rw [hm]
            simp only [List.length_singleton, BULK_PAGE]
            omega
        · rw [sweepPages, if_neg hnil, if_neg hshort]
          simp only [BULK_PAGE] at hlen hshort hpos ⊢
          have hB : (list_endpoint store 1000 offset).length = 1000 := by omega
          have hmB : 1000 ≤ store.length - offset := by omega
          rw [hB]
          have hrec := ih (offset + 1000) (by omega) (by omega)
          rcases hrec with ⟨hflat, hpages⟩
          simp only [BULK_PAGE] at hflat hpages
          constructor
          · simp only [List.flatten_cons, List.length_append, hflat, hB]
            omega
          · simp only [List.length_cons, hpages]
            omega

/-- C3: with page size 1000 and no concurrent writer, the full-listing sweep
of delete_bulk visits exactly the ceiling of K divided by 1000 pages of
documents for a store of K documents (an empty reply, possible only when K is
a multiple of 1000, just stops the loop and contributes no page), and the
concatenation of all fetched pages has exactly K entries. -/
theorem C3_pagination_completeness (store : List Doc) :
    (sweepPages store 0).length
      = (store.length + (BULK_PAGE - 1)) / BULK_PAGE ∧
    (sweepPages store 0).flatten.length = store.length := by
  have h := sweepPages_spec store store.length 0 (by omega) (by omega)
  rcases h with ⟨hflat, hpages⟩
  simp only [Nat.sub_zero] at hflat hpages
  exact ⟨hpages, hflat⟩

/-- Cutoff instant used by delete_bulk: the current UTC time minus the
requested number of days, modelled in seconds. -/
def ageCutoff (now_utc : Int) (days : Nat) : Int := now_utc - (days : Int) * 86400

/-- Per-document selection of the age sweep (vmem.py lines 1694-1713): a
document contributes its id when its created_at is present and nonempty (the
source tests Python falsiness), parses as a timestamp, and that timestamp is
strictly before the cutoff; the Python ISO-8601 parser is an external black
box, taken as an abstract parameter mapping a string to a UTC instant in
seconds when it succeeds and to none when it raises. -/
def ageSelect (parseTs : String → Option Int) (cutoff : Int) (d : Doc) :
    List String :=
  match d.created_at with
  | none => []
  | some s =>
      if s = "" then []
      else
        match parseTs s with
        | none => []
        | some t => if t < cutoff then [d.id] else []

/-- The age sweep appends the selected ids over the fetched documents in
order. -/
def ageSweepTargets (parseTs : String → Option Int) (cutoff : Int)
    (docs : List Doc) : List String :=
  docs.foldl (fun acc d => acc ++ ageSelect parseTs cutoff d) []

theorem mem_foldl_append {β : Type} (f : β → List String) (l : List β)
    (acc : List String) (x : String) :
    x ∈ l.foldl (fun a b => a ++ f b) acc ↔ x ∈ acc ∨ ∃ b ∈ l, x ∈ f b := by
  induction l generalizing acc with
  | nil => simp
  | cons c cs ih =>
      simp only [List.foldl_cons, ih, List.mem_append]
      constructor
      · rintro ((h | h) | ⟨b, hb, hx⟩)
        · exact Or.inl h
        · exact Or.inr ⟨c, by simp, h⟩
        · exact Or.inr ⟨b, by simp [hb], hx⟩
      · rintro (h | ⟨b, hb, hx⟩)
        · exact Or.inl (Or.inl h)
        · rcases List.mem_cons.mp hb with rfl | hb'
          · exact Or.inl (Or.inr hx)
          · exact Or.inr ⟨b, hb', hx⟩

/-- C5: the age sweep of delete_bulk selects exactly the ids of documents
whose created_at is present and parses to an instant strictly before now
minus N days, and documents with a missing or unparseable created_at are
never selected; the hypothesis records that the empty string, which the
source skips as falsy, is not a parseable ISO-8601 timestamp. -/
theorem C5_age_sweep_exact (parseTs : String → Option Int)
    (hparse : parseTs "" = none) (now_utc : Int) (N : Nat)
    (docs : List Doc) (i : String) :
    i ∈ ageSweepTargets parseTs (ageCutoff now_utc N) docs ↔
      ∃ d ∈ docs, d.id = i ∧
        ∃ s t, d.created_at = some s ∧ parseTs s = some t ∧
          t < now_utc - (N : Int) * 86400 := by
  unfold ageSweepTargets ageCutoff
  rw [mem_foldl_append]
  simp only [List.not_mem_nil, false_or]
  constructor
  · rintro ⟨d, hd, hsel⟩
    refine ⟨d, hd, ?_⟩
    cases hc : d.created_at with
    | none => simp [ageSelect, hc] at hsel
    | some s =>
        by_cases hs : s = ""
        · simp [ageSelect, hc, hs] at hsel
        · cases hp : parseTs s with
          | none => simp [ageSelect, hc, hs, hp] at hsel
          | some t =>
              by_cases ht : t < now_utc - (N : Int) * 86400
              · have hi : i = d.id := by
                  simpa [ageSelect, hc, hs, hp, ht] using hsel
                exact ⟨hi.symm, s, t, rfl, hp, ht⟩
              · simp [ageSelect, hc, hs, hp, ht] at hsel
  · rintro ⟨d, hd, hid, s, t, hc, hp, ht⟩
    refine ⟨d, hd, ?_⟩
    have hs : s ≠ "" := by
      intro hs0
      rw [hs0, hparse] at hp
      cases hp
    simp [ageSelect, hc, hs, hp, ht, hid]

/-- Parser used by the C5 witness, recognising exactly one timestamp. -/
def parseFixed : String → Option Int :=
  fun s => if s = "2020-01-01T00:00:00Z" then some 0 else none

/-- A document old enough to be swept. -/
def docAged : Doc := ⟨"aged", "old text", some "2020-01-01T00:00:00Z", none⟩

/-- C5 witness: a concrete document whose created_at parses one day before
the cutoff is selected by the age sweep. -/
theorem C5_age_sweep_exact_witness :
    "aged" ∈ ageSweepTargets parseFixed (ageCutoff 86400 0) [docAged] :=
  (C5_age_sweep_exact parseFixed (by decide) 86400 0 [docAged] "aged").mpr
    ⟨docAged, by simp, rfl, "2020-01-01T00:00:00Z", 0, rfl, by decide, by decide⟩

/-- One step of the duplicate grouping: the Python defaultdict-of-list append
keyed by exact text, preserving first-occurrence order of keys and fetched
order inside each group. -/
def groupAppend (groups : List (String × List Doc)) (t : String) (d : Doc) :
    List (String × List Doc) :=
  match groups with
  | [] => [(t, [d])]
  | (t', ds) :: rest =>
      if t' = t then (t', ds ++ [d]) :: rest
      else (t', ds) :: groupAppend rest t d

/-- The duplicate sweep's grouping pass (vmem.py lines 1716-1721): a document
whose text is empty, or missing or None and hence fetched as empty, is
skipped by the Python truthiness test; every other document is appended to
the group of its exact text. -/
def buildGroups (docs : List Doc) : List (String × List Doc) :=
  docs.foldl (fun gs d => if d.text = "" then gs else groupAppend gs d.text d) []

/-- The duplicate sweep's selection pass (vmem.py lines 1723-1734): in each
group of more than one document, every document but the first contributes
its id, in group order. -/
def dupSweepTargets (docs : List Doc) : List String :=
  (buildGroups docs).foldl
    (fun acc g => acc ++ (if 1 < g.2.length then g.2.tail.map Doc.id else [])) []

theorem mem_filter_tail_split (p : Doc → Bool) (d : Doc) :
    ∀ docs : List Doc, d ∈ (docs.filter p).tail →
      ∃ pre suf, docs = pre ++ d :: suf ∧ (∃ e ∈ pre, p e = true) ∧
        p d = true := by
  intro docs
  induction docs with
  | nil => intro h; simp at h
  | cons x xs ih =>
      intro h
      by_cases hx : p x = true
      · rw [List.filter_cons_of_pos hx, List.tail_cons] at h
        have hd : p d = true := List.of_mem_filter h
        have hdx : d ∈ xs := List.mem_of_mem_filter h
        rcases List.append_of_mem hdx with ⟨pre', suf', rfl⟩
        exact ⟨x :: pre', suf', rfl, ⟨x, by simp, hx⟩, hd⟩
      · rw [List.filter_cons_of_neg (by simpa using hx)] at h
        rcases ih h with ⟨pre, suf, heq, ⟨e, he, hpe⟩, hpd⟩
        exact ⟨x :: pre, suf, by simp [heq], ⟨e, by simp [he], hpe⟩, hpd⟩

theorem mem_tail_filter_of_split (p : Doc → Bool) (d : Doc) :
    ∀ (pre suf : List Doc), p d = true → (∃ e ∈ pre, p e = true) →
      d ∈ ((pre ++ d :: suf).filter p).tail := by
  intro pre
  induction pre with
  | nil =>
      rintro suf hd ⟨e, he, hpe⟩
      simp at he
  | cons x xs ih =>
      rintro suf hd ⟨e, he, hpe⟩
      by_cases hx : p x = true
      · rw [List.cons_append, List.filter_cons_of_pos hx, List.tail_cons]
        exact List.mem_filter.mpr ⟨by simp, hd⟩
      · rw [List.cons_append, List.filter_cons_of_neg (by simpa using hx)]
        apply ih suf hd
        rcases List.mem_cons.mp he with rfl | he'
        · exact absurd hpe hx
        · exact ⟨e, he', hpe⟩

theorem one_lt_length_filter_split (p : Doc → Bool) (d : Doc)
    (pre suf : List Doc) (hd : p d = true) (he : ∃ e ∈ pre, p e = true) :
    1 < ((pre ++ d :: suf).filter p).length := by
  rcases he with ⟨e, he, hpe⟩
  rw [List.filter_append, List.length_append]
  have h1 : 0 < (pre.filter p).length :=
    List.length_pos_of_mem (List.mem_filter.mpr ⟨he, hpe⟩)
  have h2 : 0 < ((d :: suf).filter p).length := by
    rw [List.filter_cons_of_pos hd]
    simp
  omega

theorem keys_groupAppend (t0 : String) (d0 : Doc)
    (gs : List (String × List Doc)) :
    (groupAppend gs t0 d0).map Prod.fst
      = gs.map Prod.fst ++ (if t0 ∈ gs.map Prod.fst then [] else [t0]) := by
  induction gs with
  | nil => simp [groupAppend]
  | cons g rest ih =>
      obtain ⟨t', ds'⟩ := g
      by_cases h : t' = t0
      · subst h
        simp [groupAppend]
      · have hcond : (t0 ∈ (t' :: rest.map Prod.fst)) ↔ t0 ∈ rest.map Prod.fst := by
          simp [List.mem_cons, Ne.symm h]
        simp only [groupAppend, if_neg h, List.map_cons, ih, List.cons_append]
        by_cases hmem : t0 ∈ rest.map Prod.fst
        · simp [hmem, hcond]
        · simp [hmem, hcond]

theorem nodup_keys_groupAppend (t0 : String) (d0 : Doc)
    (gs : List (String × List Doc)) (hn : (gs.map Prod.fst).Nodup) :
    ((groupAppend gs t0 d0).map Prod.fst).Nodup := by
  rw [keys_groupAppend]
  by_cases h : t0 ∈ gs.map Prod.fst
  · simpa [h] using hn
  · rw [if_neg h]
    rw [List.nodup_append]
    exact ⟨hn, List.nodup_singleton _, by simpa using h⟩

theorem pairEq {α β : Type} {a c : α} {b d : β} :
    ((a, b) = (c, d)) ↔ (a = c ∧ b = d) := by
  simp

theorem mem_groupAppend (t0 : String) (d0 : Doc) :
    ∀ (gs : List (String × List Doc)), (gs.map Prod.fst).Nodup →
      ∀ (t : String) (ds : List Doc),
      ((t, ds) ∈ groupAppend gs t0 d0 ↔
        (t ≠ t0 ∧ (t, ds) ∈ gs) ∨
        (t = t0 ∧ ∃ ds0, (t0, ds0) ∈ gs ∧ ds = ds0 ++ [d0]) ∨
        (t = t0 ∧ t0 ∉ gs.map Prod.fst ∧ ds = [d0])) := by
  intro gs
  induction gs with
  | nil =>
      intro _ t ds
      constructor
      · intro hmem
        have hmem1 : (t, ds) ∈ [(t0, [d0])] := hmem
        have heq := List.mem_singleton.mp hmem1
        have h1 : t = t0 := (pairEq.mp heq).1
        have h2 : ds = [d0] := (pairEq.mp heq).2
        exact Or.inr (Or.inr ⟨h1, by simp, h2⟩)
      · rintro (⟨_, hmem⟩ | ⟨_, _, hmem, _⟩ | ⟨h1, _, h2⟩)
        · simp at hmem
        · simp at hmem
        · show (t, ds) ∈ [(t0, [d0])]
          rw [h1, h2]
          exact List.mem_singleton.mpr rfl
  | cons g rest ih =>
      intro hn t ds
      obtain ⟨t', ds'⟩ := g
      rw [List.map_cons] at hn
      have ht' : t' ∉ rest.map Prod.fst := (List.nodup_cons.mp hn).1
      have hrest : (rest.map Prod.fst).Nodup := (List.nodup_cons.mp hn).2
      by_cases h : t' = t0
      · simp only [groupAppend, if_pos h]
        constructor
        · intro hmem
          rcases List.mem_cons.mp hmem with heq | hmem1
          · have h1 : t = t' := (pairEq.mp heq).1
            have h2 : ds = ds' ++ [d0] := (pairEq.mp heq).2
            refine Or.inr (Or.inl ⟨h1.trans h, ds', ?_, h2⟩)
            rw [← h]
            exact List.mem_cons_self _ _
          · have hne : t ≠ t0 := by
              intro heqt
              apply ht'
              rw [h, ← heqt]
              exact List.mem_map.mpr ⟨(t, ds), hmem1, rfl⟩
            exact Or.inl ⟨hne, List.mem_cons_of_mem _ hmem1⟩
        · rintro (⟨hne, hmem⟩ | ⟨heqt, ds0, hmem0, hds⟩ | ⟨heqt, hnk, hds⟩)
          · rcases List.mem_cons.mp hmem with heq | hmem1
            · exact absurd ((pairEq.mp heq).1.trans h) hne
            · exact List.mem_cons_of_mem _ hmem1
          · rcases List.mem_cons.mp hmem0 with heq | hmem1
            · refine List.mem_cons.mpr (Or.inl ?_)
              rw [heqt, ← h, hds, (pairEq.mp heq).2]
            · exact absurd (List.mem_map.mpr ⟨(t0, ds0), hmem1, rfl⟩) (h ▸ ht')
          · exact absurd (by rw [List.map_cons]
                             exact List.mem_cons.mpr (Or.inl h.symm)) hnk
      · simp only [groupAppend, if_neg h]
        constructor
        · intro hmem
          rcases List.mem_cons.mp hmem with heq | hmem1
          · have h1 : t = t' := (pairEq.mp heq).1
            have h2 : ds = ds' := (pairEq.mp heq).2
            refine Or.inl ⟨by rw [h1]; exact h, ?_⟩
            rw [h1, h2]
            exact List.mem_cons_self _ _
          · rcases (ih hrest t ds).mp hmem1 with
              ⟨hne, hm⟩ | ⟨heqt, ds0, hm, hds⟩ | ⟨heqt, hnk, hds⟩
            · exact Or.inl ⟨hne, List.mem_cons_of_mem _ hm⟩
            · exact Or.inr (Or.inl ⟨heqt, ds0, List.mem_cons_of_mem _ hm, hds⟩)
            · refine Or.inr (Or.inr ⟨heqt, ?_, hds⟩)
              rw [List.map_cons]
              intro hk
              rcases List.mem_cons.mp hk with hk0 | hk1
              · exact h hk0.symm
              · exact hnk hk1
        · rintro (⟨hne, hmem⟩ | ⟨heqt, ds0, hmem0, hds⟩ | ⟨heqt, hnk, hds⟩)
          · rcases List.mem_cons.mp hmem with heq | hmem1
            · rw [heq]
              exact List.mem_cons_self _ _
            · exact List.mem_cons_of_mem _
                ((ih hrest t ds).mpr (Or.inl ⟨hne, hmem1⟩))
          · rcases List.mem_cons.mp hmem0 with heq | hmem1
            · exact absurd ((pairEq.mp heq).1).symm h
            · exact List.mem_cons_of_mem _
                ((ih hrest t ds).mpr (Or.inr (Or.inl ⟨heqt, ds0, hmem1, hds⟩)))
          · have hnk1 : t0 ∉ rest.map Prod.fst := by
              intro hk
              exact hnk (by rw [List.map_cons]
                            exact List.mem_cons_of_mem _ hk)
            exact List.mem_cons_of_mem _
              ((ih hrest t ds).mpr (Or.inr (Or.inr ⟨heqt, hnk1, hds⟩)))

theorem buildGroups_loop_invariant :
    ∀ (docs : List Doc) (gs : List (String × List Doc)) (processed : List Doc),
      (gs.map Prod.fst).Nodup →
      (∀ t ds, ((t, ds) ∈ gs ↔
        t ≠ "" ∧ ds = processed.filter (fun x => x.text == t) ∧ ds ≠ [])) →
      (((docs.foldl
          (fun gs d => if d.text = "" then gs else groupAppend gs d.text d)
          gs).map Prod.fst).Nodup ∧
       (∀ t ds, ((t, ds) ∈ docs.foldl
          (fun gs d => if d.text = "" then gs else groupAppend gs d.text d) gs ↔
        t ≠ "" ∧ ds = (processed ++ docs).filter (fun x => x.text == t) ∧
          ds ≠ []))) := by
  intro docs
  induction docs with
  | nil =>
      intro gs processed hn hinv
      simp only [List.foldl_nil, List.append_nil]
      exact ⟨hn, hinv⟩
  | cons d rest ih =>
      intro gs processed hn hinv
      simp only [List.foldl_cons]
      by_cases he : d.text = ""
      · rw [if_pos he]
        have hfilter : ∀ t : String, t ≠ "" →
            (processed ++ [d]).filter (fun x => x.text == t)
              = processed.filter (fun x => x.text == t) := by
          intro t ht
          rw [List.filter_append]
          have hfd : (d.text == t) = false := by
            rw [he]
            exact beq_eq_false_iff_ne.mpr (Ne.symm ht)
          simp [List.filter_cons, hfd]
        have hinv2 : ∀ t ds, ((t, ds) ∈ gs ↔
            t ≠ "" ∧ ds = (processed ++ [d]).filter (fun x => x.text == t) ∧
              ds ≠ []) := by
          intro t ds
          rw [hinv t ds]
          constructor
          · rintro ⟨ht, hds, hne⟩
            exact ⟨ht, by rw [hfilter t ht]; exact hds, hne⟩
          · rintro ⟨ht, hds, hne⟩
            exact ⟨ht, by rw [← hfilter t ht]; exact hds, hne⟩
        rcases ih gs (processed ++ [d]) hn hinv2 with ⟨h2n, h2i⟩
        refine ⟨h2n, ?_⟩
        intro t ds
        rw [h2i t ds, List.append_assoc, List.singleton_append]
      · rw [if_neg he]
        have hn2 : ((groupAppend gs d.text d).map Prod.fst).Nodup :=
          nodup_keys_groupAppend _ _ _ hn
        have hkeys : ∀ t1 : String, t1 ∈ gs.map Prod.fst ↔
            (t1 ≠ "" ∧ processed.filter (fun x => x.text == t1) ≠ []) := by
          intro t1
          constructor
          · intro hk
            rcases List.mem_map.mp hk with ⟨g1, hg1, hfst⟩
            obtain ⟨ta, dsa⟩ := g1
            cases hfst
            rcases (hinv ta dsa).mp hg1 with ⟨ht, hds, hne⟩
            exact ⟨ht, hds ▸ hne⟩
          · rintro ⟨ht, hfne⟩
            have hmem : (t1, processed.filter (fun x => x.text == t1)) ∈ gs :=
              (hinv t1 _).mpr ⟨ht, rfl, hfne⟩
            exact List.mem_map.mpr ⟨_, hmem, rfl⟩
        have hinv2 : ∀ t ds, ((t, ds) ∈ groupAppend gs d.text d ↔
            t ≠ "" ∧ ds = (processed ++ [d]).filter (fun x => x.text == t) ∧
              ds ≠ []) := by
          intro t ds
          rw [mem_groupAppend d.text d gs hn t ds]
          by_cases htd : t = d.text
          · subst htd
            have hfd : (d.text == d.text) = true := beq_self_eq_true d.text
            have hfilter2 : (processed ++ [d]).filter (fun x => x.text == d.text)
                = processed.filter (fun x => x.text == d.text) ++ [d] := by
              rw [List.filter_append]
              simp [List.filter_cons, hfd]
            by_cases hfil : processed.filter (fun x => x.text == d.text) = []
            · have hkabs : d.text ∉ gs.map Prod.fst := by
                rw [hkeys]
                rintro ⟨-, hcon⟩
                exact hcon hfil
              constructor
              · rintro (⟨hne, -⟩ | ⟨-, ds0, hm0, -⟩ | ⟨-, -, hds⟩)
                · exact absurd rfl hne
                · rcases (hinv d.text ds0).mp hm0 with ⟨-, hds0, hne0⟩
                  exact absurd (hds0.trans hfil) hne0
                · refine ⟨he, ?_, by simp [hds]⟩
                  rw [hds, hfilter2, hfil, List.nil_append]
              · rintro ⟨ht, hds, hne⟩
                refine Or.inr (Or.inr ⟨rfl, hkabs, ?_⟩)
                rw [hds, hfilter2, hfil, List.nil_append]
            · have hkpres : d.text ∈ gs.map Prod.fst :=
                (hkeys d.text).mpr ⟨he, hfil⟩
              constructor
              · rintro (⟨hne, -⟩ | ⟨-, ds0, hm0, hds⟩ | ⟨-, habs, -⟩)
                · exact absurd rfl hne
                · rcases (hinv d.text ds0).mp hm0 with ⟨-, hds0, -⟩
                  refine ⟨he, ?_, by simp [hds]⟩
                  rw [hds, hds0, hfilter2]
                · exact absurd hkpres habs
              · rintro ⟨-, hds, -⟩
                refine Or.inr (Or.inl ⟨rfl,
                  processed.filter (fun x => x.text == d.text), ?_, ?_⟩)
                · exact (hinv _ _).mpr ⟨he, rfl, hfil⟩
                · rw [hds, hfilter2]
          · have hfilter3 : (processed ++ [d]).filter (fun x => x.text == t)
                = processed.filter (fun x => x.text == t) := by
              rw [List.filter_append]
              have hfd : (d.text == t) = false :=
                beq_eq_false_iff_ne.mpr (fun hc => htd hc.symm)
              simp [List.filter_cons, hfd]
            constructor
            · rintro (⟨-, hm⟩ | ⟨heq, -⟩ | ⟨heq, -, -⟩)
              · rcases (hinv t ds).mp hm with ⟨ht, hds, hne⟩
                exact ⟨ht, by rw [hfilter3]; exact hds, hne⟩
              · exact absurd heq htd
              · exact absurd heq htd
            · rintro ⟨ht, hds, hne⟩
              exact Or.inl ⟨htd,
                (hinv t ds).mpr ⟨ht, by rw [← hfilter3]; exact hds, hne⟩⟩
        rcases ih (groupAppend gs d.text d) (processed ++ [d]) hn2 hinv2 with
          ⟨h2n, h2i⟩
        refine ⟨h2n, ?_⟩
        intro t ds
        rw [h2i t ds, List.append_assoc, List.singleton_append]

theorem mem_buildGroups (docs : List Doc) (t : String) (ds : List Doc) :
    (t, ds) ∈ buildGroups docs ↔
      t ≠ "" ∧ ds = docs.filter (fun x => x.text == t) ∧ ds ≠ [] := by
  have hbase : ∀ (t1 : String) (ds1 : List Doc),
      ((t1, ds1) ∈ ([] : List (String × List Doc)) ↔
        t1 ≠ "" ∧ ds1 = ([] : List Doc).filter (fun x => x.text == t1) ∧
          ds1 ≠ []) := by
    intro t1 ds1
    simp only [List.not_mem_nil, List.filter_nil, false_iff]
    rintro ⟨-, rfl, hne⟩
    exact hne rfl
  have h := buildGroups_loop_invariant docs [] [] (by simp) hbase
  have h2 := h.2 t ds
  simpa [buildGroups] using h2

theorem dupSweep_characterization (docs : List Doc) (i : String) :
    i ∈ dupSweepTargets docs ↔
      ∃ pre d suf, docs = pre ++ d :: suf ∧ d.id = i ∧ d.text ≠ "" ∧
        ∃ e ∈ pre, e.text = d.text := by
  unfold dupSweepTargets
  rw [mem_foldl_append]
  simp only [List.not_mem_nil, false_or]
  constructor
  · rintro ⟨⟨t, ds⟩, hg, hsel⟩
    rcases (mem_buildGroups docs t ds).mp hg with ⟨ht, hds, hne⟩
    by_cases hlen : 1 < ds.length
    · rw [if_pos hlen] at hsel
      rcases List.mem_map.mp hsel with ⟨d, hdtail, hdid⟩
      subst hds
      rcases mem_filter_tail_split _ d docs hdtail with
        ⟨pre, suf, heq, ⟨e, he, hpe⟩, hpd⟩
      have hdt : d.text = t := by simpa using hpd
      have het : e.text = t := by simpa using hpe
      exact ⟨pre, d, suf, heq, hdid, by rw [hdt]; exact ht, e, he,
        by rw [het, hdt]⟩
    · rw [if_neg hlen] at hsel
      simp at hsel
  · rintro ⟨pre, d, suf, heq, hdid, hdt, e, he, het⟩
    have hdind : d ∈ docs.filter (fun x => x.text == d.text) := by
      rw [heq]
      exact List.mem_filter.mpr ⟨by simp, by simp⟩
    refine ⟨(d.text, docs.filter (fun x => x.text == d.text)),
      (mem_buildGroups docs d.text _).mpr
        ⟨hdt, rfl, List.ne_nil_of_mem hdind⟩, ?_⟩
    have hlen : 1 < (docs.filter (fun x => x.text == d.text)).length := by
      rw [heq]
      exact one_lt_length_filter_split _ d pre suf (by simp)
        ⟨e, he, by simp [het]⟩
    rw [if_pos hlen]
    apply List.mem_map.mpr
    refine ⟨d, ?_, hdid⟩
    rw [heq]
    exact mem_tail_filter_of_split _ d pre suf (by simp) ⟨e, he, by simp [het]⟩

/-- The deletion id set of delete_bulk (vmem.py lines 1692-1740): the ids the
age sweep appended, then the ids the duplicate sweep appended, deduplicated;
Python deduplicates through a set whose iteration order is unspecified, so
the model returns a canonical duplicate-free list with that membership. -/
def bulkDeleteIds (parseTs : String → Option Int) (older_than_days : Option Nat)
    (duplicates : Bool) (now_utc : Int) (docs : List Doc) : List String :=
  ((match older_than_days with
    | some days => ageSweepTargets parseTs (ageCutoff now_utc days) docs
    | none => []) ++ (if duplicates then dupSweepTargets docs else [])).dedup

/-- First of two documents with empty text. -/
def emptyTextA : Doc := ⟨"ea", "", none, none⟩

/-- Second of two documents with identical, empty text. -/
def emptyTextB : Doc := ⟨"eb", "", none, none⟩

/-- C6 counterexample: two documents with identical empty text form a group
of size two under exact text equality, and the claim as stated selects the
second one for deletion; the code's duplicate sweep skips falsy texts when
grouping and selects nothing. -/
theorem C6_empty_text_counterexample :
    emptyTextA.text = emptyTextB.text ∧ emptyTextA.id ≠ emptyTextB.id ∧
    dupSweepTargets [emptyTextA, emptyTextB] = [] := by
  decide

/-- C6 amended: the duplicate sweep groups only the documents with nonempty
text (a document whose text is empty, missing, or None is never grouped and
never selected) by exact text equality; a document id is selected exactly
when its document has nonempty text and a strictly earlier document in the
fetched ordering carries the same text, so each group retains exactly its
first document; the final deletion set has the membership of the union of
the age-sweep and duplicate-sweep selections and holds no duplicate ids. -/
theorem C6_duplicate_union_amended (parseTs : String → Option Int)
    (days : Nat) (now_utc : Int) (docs : List Doc) (i : String) :
    (i ∈ dupSweepTargets docs ↔
      ∃ pre d suf, docs = pre ++ d :: suf ∧ d.id = i ∧ d.text ≠ "" ∧
        ∃ e ∈ pre, e.text = d.text) ∧
    (i ∈ bulkDeleteIds parseTs (some days) true now_utc docs ↔
      (i ∈ ageSweepTargets parseTs (ageCutoff now_utc days) docs ∨
       i ∈ dupSweepTargets docs)) ∧
    (bulkDeleteIds parseTs (some days) true now_utc docs).Nodup := by
  refine ⟨dupSweep_characterization docs i, ?_, ?_⟩
  · simp [bulkDeleteIds, List.mem_dedup]
  · simp [bulkDeleteIds, List.nodup_dedup]

/-- Compact retention cap, vmem.py line 33. -/
def COMPACT_LIMIT : Nat := 10

/-- The client's _get_compacts (vmem.py lines 306-340): request one page of
at most 100 documents from the list endpoint (no offset, so offset 0), keep
the documents whose metadata type is compact, sort them newest first by
created_at, and truncate to the cap. -/
def getCompacts (store : List Doc) : List Doc :=
  (sortDescBy createdKey
    ((list_endpoint store 100 0).filter
      (fun d => d.mtype == some "compact"))).take COMPACT_LIMIT

/-- Number of compacts a scope actually holds. -/
def countCompacts (store : List Doc) : Nat :=
  (store.filter (fun d => d.mtype == some "compact")).length

/-- save_compact (vmem.py lines 207-255) as a store transformer: fetch the
visible compacts; when the count reaches the cap, delete the oldest visible
one — the last of the newest-first list — by id, skipping the delete when
that id is falsy; then write the new compact, which the store appends. -/
def save_compact (store : List Doc) (newCompact : Doc) : List Doc :=
  let compacts := getCompacts store
  let store2 :=
    if COMPACT_LIMIT ≤ compacts.length then
      match compacts.getLast? with
      | some oldest =>
          if oldest.id = "" then store
          else store.filter (fun d => !(d.id == oldest.id))
      | none => store
    else store
  store2 ++ [newCompact]

/-- A note document, one of the hundred filling the single visible page. -/
def noteDoc (n : Nat) : Doc := ⟨"n" ++ toString n, "note", some "a", some "note"⟩

/-- A compact document stored after the notes in native order. -/
def compactDoc (n : Nat) : Doc :=
  ⟨"c" ++ toString n, "snapshot", some "b", some "compact"⟩

/-- A scope holding 100 notes inserted first and 10 compacts after them. -/
def storeC4 : List Doc :=
  ((List.range 100).map noteDoc) ++ ((List.range 10).map compactDoc)

/-- The eleventh compact being saved. -/
def newCompactC4 : Doc := ⟨"cnew", "snapshot new", some "c", some "compact"⟩

/-- C4: evaluation at the failing input. The scope holds exactly 10 compacts
— the claim's precondition — yet a single save_compact leaves it with 11:
the one limit-100 page _get_compacts reads holds only the 100 notes, so the
client sees zero compacts and deletes nothing before inserting, violating
the cap the claim (and the source's own docstring, max 10 kept with the
oldest auto-deleted) promises. -/
theorem C4_cap_violation_eval :
    countCompacts storeC4 = 10 ∧
    getCompacts storeC4 = [] ∧
    countCompacts (save_compact storeC4 newCompactC4) = 11 := by
  decide

/-- delete compact --all (vmem.py lines 361-456, delete_all branch): the ids
sent in the single delete request are exactly those of the visible compacts. -/
def delete_compact_all_ids (store : List Doc) : List String :=
  (getCompacts store).map Doc.id

/-- delete compact --older-than (vmem.py lines 383-396): of the visible
compacts, those whose nonempty created_at parses strictly before the cutoff
contribute their id in order; the per-document test is the same as the age
sweep's. -/
def delete_compact_older_ids (parseTs : String → Option Int) (cutoff : Int)
    (store : List Doc) : List String :=
  (getCompacts store).foldl (fun acc c => acc ++ ageSelect parseTs cutoff c) []

/-- retrieve compact --all (vmem.py lines 257-304): the list displayed and
returned is the visible compacts, unchanged. -/
def retrieve_compact_all (store : List Doc) : List Doc := getCompacts store

theorem mem_ageSelect (parseTs : String → Option Int) (cutoff : Int) (c : Doc)
    (i : String) (h : i ∈ ageSelect parseTs cutoff c) : i = c.id := by
  cases hca : c.created_at with
  | none => simp [ageSelect, hca] at h
  | some s =>
      by_cases hs : s = ""
      · simp [ageSelect, hca, hs] at h
      · cases hp : parseTs s with
        | none => simp [ageSelect, hca, hs, hp] at h
        | some t =>
            by_cases ht : t < cutoff
            · simpa [ageSelect, hca, hs, hp, ht] using h
            · simp [ageSelect, hca, hs, hp, ht] at h

theorem length_ageSelect_le (parseTs : String → Option Int) (cutoff : Int)
    (c : Doc) : (ageSelect parseTs cutoff c).length ≤ 1 := by
  cases hca : c.created_at with
  | none => simp [ageSelect, hca]
  | some s =>
      by_cases hs : s = ""
      · simp [ageSelect, hca, hs]
      · cases hp : parseTs s with
        | none => simp [ageSelect, hca, hs, hp]
        | some t =>
            by_cases ht : t < cutoff <;> simp [ageSelect, hca, hs, hp, ht]

theorem length_foldl_append_le {β : Type} (f : β → List String) (l : List β)
    (h : ∀ b, (f b).length ≤ 1) :
    ∀ acc : List String,
      (l.foldl (fun a b => a ++ f b) acc).length ≤ acc.length + l.length := by
  induction l with
  | nil => intro acc; simp
  | cons c cs ih =>
      intro acc
      simp only [List.foldl_cons, List.length_cons]
      have h1 := ih (acc ++ f c)
      have h2 := h c
      rw [List.length_append] at h1
      omega

/-- C9: _get_compacts reads one page of at most 100 documents and truncates
the compact-filtered, newest-first result to the cap of 10 — so every compact
operation built on it handles at most the 10 newest visible compacts per
invocation, however many exist: retrieve --all returns at most 10, delete
--all requests at most 10 ids, delete --older-than requests a subset of
those; every returned compact is a compact of the store and the returned
list is sorted newest first. -/
theorem C9_compact_window (store : List Doc) (parseTs : String → Option Int)
    (cutoff : Int) :
    (getCompacts store).length ≤ COMPACT_LIMIT ∧
    (retrieve_compact_all store).length ≤ COMPACT_LIMIT ∧
    (delete_compact_all_ids store).length ≤ COMPACT_LIMIT ∧
    (delete_compact_older_ids parseTs cutoff store).length ≤ COMPACT_LIMIT ∧
    (∀ i ∈ delete_compact_older_ids parseTs cutoff store,
       i ∈ delete_compact_all_ids store) ∧
    (∀ d ∈ getCompacts store, d ∈ store ∧ d.mtype = some "compact") ∧
    (getCompacts store).Pairwise
      (fun a b => strLe (createdKey b) (createdKey a) = true) := by
  have hlen : (getCompacts store).length ≤ COMPACT_LIMIT := by
    unfold getCompacts
    exact List.length_take_le _ _
  refine ⟨hlen, hlen, ?_, ?_, ?_, ?_, ?_⟩
  · unfold delete_compact_all_ids
    rw [List.length_map]
    exact hlen
  · unfold delete_compact_older_ids
    have h1 := length_foldl_append_le (fun c => ageSelect parseTs cutoff c)
      (getCompacts store) (fun c => length_ageSelect_le parseTs cutoff c) []
    simp only [List.length_nil, Nat.zero_add] at h1
    exact le_trans h1 hlen
  · intro i hi
    unfold delete_compact_older_ids at hi
    rw [mem_foldl_append] at hi
    rcases hi with hi | ⟨c, hc, hsel⟩
    · simp at hi
    · unfold delete_compact_all_ids
      exact List.mem_map.mpr ⟨c, hc, (mem_ageSelect _ _ _ _ hsel).symm⟩
  · intro d hd
    unfold getCompacts at hd
    have hd1 := List.mem_of_mem_take hd
    rw [mem_sortDescBy] at hd1
    have hd2 := List.mem_filter.mp hd1
    have hmty : d.mtype = some "compact" := by
      have := hd2.2
      simpa using this
    refine ⟨?_, hmty⟩
    have hd3 := hd2.1
    unfold list_endpoint at hd3
    rw [mem_sortDescBy] at hd3
    exact List.mem_of_mem_drop (List.mem_of_mem_take hd3)
  · unfold getCompacts
    exact (pairwise_sortDescBy createdKey _).sublist (List.take_sublist _ _)

end VectorStorage
